import Mathlib

/-!
# ollama-chat-ui: the retrieval engine of `server.js`

A shallow embedding of the chunker, the cosine score, the ranking chain and the
context assembly of `server.js`, with the properties of its specification.

* A JavaScript string is the list of its UTF-16 code units (`JSString`).
* `chunkSize`, `overlap` and loop counters are integers (`Int`).
* A `for` loop is run with a step budget; `none` means the budget ran out.
-/

namespace OllamaChat

/-! ## Strings -/

/-- A JavaScript string: its UTF-16 code units, in order. -/
abbrev JSString := List Nat

/-- The UTF-16 code units of one Unicode scalar value. -/
def utf16Char (c : Char) : List Nat :=
  if c.toNat < 65536 then [c.toNat]
  else [55296 + (c.toNat - 65536) / 1024, 56320 + (c.toNat - 65536) % 1024]

/-- The JavaScript string written by a literal. -/
def utf16 (s : String) : JSString :=
  s.toList.flatMap utf16Char

/-- `String.prototype.slice(start, end)` with integer arguments: a negative
argument counts from the end, both are clamped to `[0, length]`. -/
def jsSlice {α : Type} (text : List α) (start stop : Int) : List α :=
  let len : Int := text.length
  let lo : Int := if start < 0 then max (len + start) 0 else min start len
  let hi : Int := if stop < 0 then max (len + stop) 0 else min stop len
  (text.drop lo.toNat).take (max (hi - lo) 0).toNat

/-! ## Chunker (`server.js` lines 29-35) -/

/-- The `for` loop of `chunkText`: `i` is the loop counter, `chunks` the array
built so far. One unit of budget is spent per evaluation of the loop test. -/
def chunkTextLoop {α : Type} (text : List α) (chunkSize overlap : Int) :
    Nat → Int → List (List α) → Option (List (List α))
  | 0, _, _ => none
  | fuel + 1, i, chunks =>
    if i < (text.length : Int) then
      chunkTextLoop text chunkSize overlap fuel (i + (chunkSize - overlap))
        (chunks ++ [jsSlice text i (i + chunkSize)])
    else some chunks

/-- `chunkText(text, chunkSize, overlap)`, run with a step budget. -/
def chunkText {α : Type} (fuel : Nat) (text : List α) (chunkSize overlap : Int) :
    Option (List (List α)) :=
  chunkTextLoop text chunkSize overlap fuel 0 []

/-- Default `chunkSize` of `chunkText`. -/
def defaultChunkSize : Int := 300

/-- Default `overlap` of `chunkText`. -/
def defaultOverlap : Int := 50

/-! ## Numbers

The JavaScript numbers of the score computation are binary64 values. They are
modelled by reals within the binary64 range, `NaN` and the two infinities:
a result whose magnitude reaches `2^1024 - 2^970` becomes an infinity, a
product or quotient of magnitude at most `2^-1075` becomes 0 (a sum of two
binary64 values is a multiple of `2^-1074` and never underflows), and the
rounding of an in-range result to 53 bits is left out. Signed zeros are not
distinguished. -/

/-- A JavaScript number: `NaN`, `+Infinity` / `-Infinity`, or a real. -/
inductive JSNumber where
  | nan : JSNumber
  | inf (negative : Bool) : JSNumber
  | fin (x : ℝ) : JSNumber

namespace JSNumber

/-- The least magnitude that rounds to an infinity: halfway between the
largest binary64 value `2^1024 - 2^971` and `2^1024`. -/
noncomputable def overflowBound : ℝ := 2 ^ 1024 - 2 ^ 970

/-- The largest magnitude that rounds to 0: half the least positive binary64
value `2^-1074`. -/
noncomputable def underflowBound : ℝ := 1 / 2 ^ 1075

/-- The binary64 value of an exact sum or difference. -/
noncomputable def ofSum (x : ℝ) : JSNumber :=
  if overflowBound ≤ |x| then inf (decide (x < 0)) else fin x

/-- The binary64 value of an exact product or quotient. -/
noncomputable def ofProduct (x : ℝ) : JSNumber :=
  if overflowBound ≤ |x| then inf (decide (x < 0))
  else if |x| ≤ underflowBound then fin 0
  else fin x

/-- The `+` of two numbers. -/
noncomputable def add : JSNumber → JSNumber → JSNumber
  | nan, _ => nan
  | _, nan => nan
  | inf a, inf b => if a = b then inf a else nan
  | inf a, fin _ => inf a
  | fin _, inf b => inf b
  | fin x, fin y => ofSum (x + y)

/-- Unary minus. -/
def neg : JSNumber → JSNumber
  | nan => nan
  | inf a => inf (!a)
  | fin x => fin (-x)

/-- The `-` of two numbers. -/
noncomputable def sub (a b : JSNumber) : JSNumber := add a (neg b)

/-- The `*` of two numbers. -/
noncomputable def mul : JSNumber → JSNumber → JSNumber
  | nan, _ => nan
  | _, nan => nan
  | inf a, inf b => inf (xor a b)
  | inf a, fin y => if y = 0 then nan else inf (xor a (decide (y < 0)))
  | fin x, inf b => if x = 0 then nan else inf (xor (decide (x < 0)) b)
  | fin x, fin y => ofProduct (x * y)

/-- The `/` of two numbers: `0 / 0` is `NaN`, a non-zero number over zero is
infinite. -/
noncomputable def div : JSNumber → JSNumber → JSNumber
  | nan, _ => nan
  | _, nan => nan
  | inf _, inf _ => nan
  | inf a, fin y => inf (xor a (decide (y < 0)))
  | fin _, inf _ => fin 0
  | fin x, fin y =>
    if y = 0 then (if x = 0 then nan else inf (decide (x < 0))) else ofProduct (x / y)

/-- `Math.sqrt`: the root of an in-range value is in range. -/
noncomputable def sqrt : JSNumber → JSNumber
  | nan => nan
  | inf a => if a then nan else inf false
  | fin x => if x < 0 then nan else fin (Real.sqrt x)

/-- The test `v > 0` made by `Array.prototype.sort` on a comparator result
(a `NaN` result counts as `+0`). -/
def isPositive : JSNumber → Prop
  | nan => False
  | inf a => a = false
  | fin x => 0 < x

/-- The `<=` of two numbers: false when either is `NaN`. -/
def le : JSNumber → JSNumber → Prop
  | fin x, fin y => x ≤ y
  | fin _, inf b => b = false
  | inf a, fin _ => a = true
  | inf a, inf b => a = true ∨ b = false
  | nan, _ => False
  | _, nan => False

/-- The place of a number in the order of the extended reals (0 for `NaN`,
which has no place). -/
noncomputable def rank : JSNumber → EReal
  | fin x => (x : EReal)
  | inf true => ⊥
  | inf false => ⊤
  | nan => 0

/-- `ToNumber` of an array read: a missing element is `undefined`, whose
number is `NaN`. -/
def ofElement : Option ℝ → JSNumber
  | some x => fin x
  | none => nan

end JSNumber

/-- `Array.prototype.reduce(callback, initial)`: the callback receives the
accumulator, the element and its index. -/
def arrayReduceFrom {α β : Type} (callback : β → α → Nat → β) : List α → Nat → β → β
  | [], _, acc => acc
  | a :: rest, i, acc => arrayReduceFrom callback rest (i + 1) (callback acc a i)

/-- `Array.prototype.reduce` from index 0. -/
def arrayReduce {α β : Type} (callback : β → α → Nat → β) (initial : β) (xs : List α) : β :=
  arrayReduceFrom callback xs 0 initial

/-! ## Cosine score (`server.js` lines 50-55) -/

/-- `cosineSimilarity(vecA, vecB)`. -/
noncomputable def cosineSimilarity (vecA vecB : List ℝ) : JSNumber :=
  let dot := arrayReduce
    (fun sum a i => JSNumber.add sum (JSNumber.mul (JSNumber.fin a) (JSNumber.ofElement vecB[i]?)))
    (JSNumber.fin 0) vecA
  let magA := JSNumber.sqrt (arrayReduce
    (fun sum a _ => JSNumber.add sum (JSNumber.mul (JSNumber.fin a) (JSNumber.fin a)))
    (JSNumber.fin 0) vecA)
  let magB := JSNumber.sqrt (arrayReduce
    (fun sum b _ => JSNumber.add sum (JSNumber.mul (JSNumber.fin b) (JSNumber.fin b)))
    (JSNumber.fin 0) vecB)
  JSNumber.div dot (JSNumber.mul magA magB)

/-! ## Vector store rows and upload (`server.js` lines 74-88) -/

/-- A row of table `embeddings` as the chat route reads it back
(`JSON.parse(JSON.stringify(e))` is taken to be `e`). -/
structure Fragment where
  chunk : JSString
  embedding : List ℝ
  filename : JSString

/-- The JSON body of a successful upload. -/
structure UploadResponse where
  success : Bool
  chunks : Nat
deriving DecidableEq

/-- The `for (const chunk of chunks)` loop of the upload route. `embedText k c`
is the outcome of the `k`-th call of `embedText`, made on chunk `c`: `none` is
a falsy result (`null` after a failed request). -/
def uploadLoop (embedText : Nat → JSString → Option (List ℝ)) (originalname : JSString) :
    List JSString → Nat → List Fragment → List Fragment
  | [], _, db => db
  | chunk :: rest, k, db =>
    match embedText k chunk with
    | some embedding =>
      uploadLoop embedText originalname rest (k + 1) (db ++ [Fragment.mk chunk embedding originalname])
    | none => uploadLoop embedText originalname rest (k + 1) db

/-- The upload route from `chunkText(text)` to `res.json(...)`: the response
and the table after the inserts. -/
def upload (fuel : Nat) (embedText : Nat → JSString → Option (List ℝ))
    (originalname text : JSString) (db : List Fragment) : Option (UploadResponse × List Fragment) :=
  match chunkText fuel text defaultChunkSize defaultOverlap with
  | none => none
  | some chunks =>
    some (UploadResponse.mk true chunks.length, uploadLoop embedText originalname chunks 0 db)

/-! ## Ranking (`server.js` lines 111-119) -/

/-- An element of `rankedChunks`. -/
structure RankedChunk where
  chunk : JSString
  embedding : List ℝ
  similarity : JSNumber
  filename : JSString

open Classical in
/-- Insertion of `x` in front of an already sorted array: `x` moves right past
`y` while `comparefn(x, y) > 0`. -/
noncomputable def sortInsert {α : Type} (comparefn : α → α → JSNumber) (x : α) : List α → List α
  | [] => [x]
  | y :: ys =>
    if (comparefn x y).isPositive then y :: sortInsert comparefn x ys else x :: y :: ys

/-- `Array.prototype.sort(comparefn)`. ECMAScript fixes the result for a
consistent comparator (the stable sorted arrangement) and leaves the algorithm
open; this is stable insertion sort. -/
noncomputable def arraySort {α : Type} (comparefn : α → α → JSNumber) : List α → List α
  | [] => []
  | x :: xs => sortInsert comparefn x (arraySort comparefn xs)

/-- The `map` callback of the ranking chain. -/
noncomputable def scoreItem (questionEmbedding : List ℝ) (item : Fragment) : RankedChunk :=
  RankedChunk.mk item.chunk item.embedding
    (cosineSimilarity item.embedding questionEmbedding) item.filename

/-- The `rankedChunks` chain: `map`, `sort` with `b.similarity - a.similarity`,
`slice(0, 5)`. -/
noncomputable def rankedChunks (questionEmbedding : List ℝ) (vectorDB : List Fragment) :
    List RankedChunk :=
  (arraySort (fun a b => JSNumber.sub b.similarity a.similarity)
    (vectorDB.map (scoreItem questionEmbedding))).take 5

/-! ## Context assembly (`server.js` lines 121-136) -/

/-- The exception a failed call raises. -/
inductive JSError where
  | typeError : JSError
deriving DecidableEq

/-- The property names of `Object.prototype`, which a plain object inherits. -/
def objectPrototypeKeys : List JSString :=
  [utf16 "constructor", utf16 "__defineGetter__", utf16 "__defineSetter__",
   utf16 "hasOwnProperty", utf16 "__lookupGetter__", utf16 "__lookupSetter__",
   utf16 "isPrototypeOf", utf16 "propertyIsEnumerable", utf16 "toString",
   utf16 "valueOf", utf16 "__proto__", utf16 "toLocaleString"]

/-- The decimal value of a digit string. -/
def digitsValue (key : JSString) : Nat :=
  key.foldl (fun n d => 10 * n + (d - 48)) 0

/-- The array index a property key denotes, if any: a canonical decimal
numeral (no leading zero) of value at most `2^32 - 2`. -/
def arrayIndex? (key : JSString) : Option Nat :=
  match key with
  | [] => none
  | d :: rest =>
    if (d :: rest).all (fun c => decide (48 ≤ c ∧ c ≤ 57)) && (d != 48 || rest.isEmpty)
        && decide (digitsValue (d :: rest) < 4294967295)
    then some (digitsValue (d :: rest)) else none

/-- The object `grouped`: its own properties in creation order; every value is
an array of chunks. -/
abbrev Grouped := List (JSString × List JSString)

/-- The body of the `forEach` callback:
`grouped[filename] = grouped[filename] || []; grouped[filename].push(chunk)`.
An own property holds an array, which is truthy and receives the chunk. A key
that is not an own property but is inherited from `Object.prototype` reads as
a truthy non-array, so `push` is `undefined` and the call throws. Any other
key gets a new own property. -/
def groupStep (grouped : Grouped) (filename chunk : JSString) : Except JSError Grouped :=
  if grouped.any (fun e => decide (e.1 = filename)) then
    Except.ok (grouped.map (fun e => if e.1 = filename then (e.1, e.2 ++ [chunk]) else e))
  else if filename ∈ objectPrototypeKeys then Except.error JSError.typeError
  else Except.ok (grouped ++ [(filename, [chunk])])

/-- The `rankedChunks.forEach(...)` statement. -/
def groupAll : Grouped → List RankedChunk → Except JSError Grouped
  | grouped, [] => Except.ok grouped
  | grouped, rc :: rest =>
    match groupStep grouped rc.filename rc.chunk with
    | Except.error e => Except.error e
    | Except.ok grouped' => groupAll grouped' rest

/-- `Object.entries(grouped)`: keys that are array indices first, in ascending
numeric order, then the other keys in creation order. -/
def objectEntries (grouped : Grouped) : Grouped :=
  ((grouped.filterMap (fun e => (arrayIndex? e.1).map (fun n => (n, e)))).insertionSort
      (fun a b => a.1 ≤ b.1)).map (fun p => p.2)
    ++ grouped.filter (fun e => (arrayIndex? e.1).isNone)

/-- `Array.prototype.join(separator)` on an array of strings. -/
def arrayJoin (separator : JSString) : List JSString → JSString
  | [] => []
  | [x] => x
  | x :: y :: rest => x ++ separator ++ arrayJoin separator (y :: rest)

/-- The template literal of one source group. -/
def renderGroup (entry : JSString × List JSString) : JSString :=
  utf16 "📄 **From file: " ++ entry.1 ++ utf16 "**\n\n" ++ arrayJoin (utf16 "\n\n---\n\n") entry.2

/-- The value of `contextText` after the `if (rankedChunks.length > 0)` block,
or the exception thrown inside it. -/
def contextText (rankedChunks : List RankedChunk) : Except JSError JSString :=
  if rankedChunks.length > 0 then
    match groupAll [] rankedChunks with
    | Except.error e => Except.error e
    | Except.ok grouped => Except.ok (arrayJoin (utf16 "\n\n") ((objectEntries grouped).map renderGroup))
  else Except.ok []

/-! ## The specification's wording, for comparison -/

/-- The distinct elements of a list in order of first appearance. -/
def firstAppearances {α : Type} [DecidableEq α] : List α → List α
  | [] => []
  | a :: l => a :: (firstAppearances l).filter (fun b => decide (b ≠ a))

/-- The fragments of source `f` among the matches, in ranked order. -/
def sourceChunks (f : JSString) (ranked : List RankedChunk) : List JSString :=
  (ranked.filter (fun m => decide (m.filename = f))).map (fun m => m.chunk)

/-- The context of the specification: one labelled group per distinct source,
sources in order of first appearance among the matches, the fragments of a
source in ranked order joined by the delimiter. -/
def assembleSpec (ranked : List RankedChunk) : JSString :=
  arrayJoin (utf16 "\n\n")
    ((firstAppearances (ranked.map (fun m => m.filename))).map
      (fun f => renderGroup (f, sourceChunks f ranked)))

/-- The chunk count of the specification:
`ceil(max(L - overlap, 0) / (size - overlap))`. -/
def specChunkCount (L : Nat) (size overlap : Int) : Int :=
  ⌈((max ((L : Int) - overlap) 0 : Int) : ℚ) / ((size - overlap : Int) : ℚ)⌉

/-- The substring of `text` from offset `a` up to offset `b`. -/
def substring {α : Type} (text : List α) (a b : Nat) : List α :=
  (text.take b).drop a

/-! ## Theorems -/

/-! ### Chunker -/

theorem jsSlice_window {α : Type} (text : List α) (a size : Nat) (ha : a ≤ text.length) :
    jsSlice text (a : Int) ((a : Int) + (size : Int)) = (text.drop a).take size := by
  unfold jsSlice
  have h1 : ¬ ((a : Int) < 0) := by omega
  have h2 : ¬ ((a : Int) + (size : Int) < 0) := by omega
  simp only [h1, h2, if_false]
  have h3 : (min (a : Int) (text.length : Int)).toNat = a := by omega
  rw [h3, List.take_eq_take, List.length_drop]
  omega

theorem chunkCount_step (L i st : Nat) (hst : 0 < st) (hi : i < L) :
    (L - i + st - 1) / st = (L - (i + st) + st - 1) / st + 1 := by
  by_cases h : i + st ≤ L
  · have e : L - i + st - 1 = (L - (i + st) + st - 1) + st := by omega
    rw [e, Nat.add_div_right _ hst]
  · have e1 : L - (i + st) + st - 1 = st - 1 := by omega
    have e2 : L - i + st - 1 = (L - i - 1) + st := by omega
    rw [e1, e2, Nat.add_div_right _ hst, Nat.div_eq_of_lt (by omega), Nat.div_eq_of_lt (by omega)]

theorem chunkTextLoop_eq {α : Type} (text : List α) (size overlap : Nat) (h : overlap < size) :
    ∀ (fuel i : Nat) (acc : List (List α)), 0 < fuel → text.length < fuel + i →
      chunkTextLoop text (size : Int) (overlap : Int) fuel (i : Int) acc
        = some (acc ++ (List.range ((text.length - i + (size - overlap) - 1) / (size - overlap))).map
            (fun j => (text.drop (i + j * (size - overlap))).take size)) := by
  intro fuel
  induction fuel with
  | zero =>
    intro i acc h0 _
    omega
  | succ fuel ih =>
    intro i acc _ hf
    have hst : 0 < size - overlap := by omega
    by_cases hi : i < text.length
    · have hi' : (i : Int) < (text.length : Int) := by exact_mod_cast hi
      have hnext : (i : Int) + ((size : Int) - (overlap : Int)) = ((i + (size - overlap) : Nat) : Int) := by
        omega
      rw [chunkTextLoop, if_pos hi', hnext, ih _ _ (by omega) (by omega), jsSlice_window text i size hi.le,
        chunkCount_step _ _ _ hst hi, List.range_succ_eq_map, List.map_cons, List.map_map,
        List.append_assoc]
      congr 2
      simp only [List.singleton_append, Nat.zero_mul, Nat.add_zero, List.cons.injEq, true_and]
      apply List.map_congr_left
      intro j _
      simp only [Function.comp, Nat.succ_eq_add_one]
      congr 2
      ring
    · have hi' : ¬ ((i : Int) < (text.length : Int)) := by exact_mod_cast hi
      have h0 : (text.length - i + (size - overlap) - 1) / (size - overlap) = 0 :=
        Nat.div_eq_of_lt (by omega)
      rw [chunkTextLoop, if_neg hi', h0]
      simp

theorem chunkText_eq {α : Type} (text : List α) (size overlap : Nat) (h : overlap < size)
    (fuel : Nat) (hf : text.length < fuel) :
    chunkText fuel text (size : Int) (overlap : Int)
      = some ((List.range ((text.length + (size - overlap) - 1) / (size - overlap))).map
          (fun j => (text.drop (j * (size - overlap))).take size)) := by
  have := chunkTextLoop_eq text size overlap h fuel 0 [] (by omega) (by omega)
  simpa [chunkText] using this

theorem ceil_div_eq (L st : Nat) (hst : 0 < st) :
    ⌈((L : Int) : ℚ) / ((st : Int) : ℚ)⌉ = (((L + st - 1) / st : Nat) : Int) := by
  have hq : (0 : ℚ) < ((st : Int) : ℚ) := by exact_mod_cast hst
  have h1 : (L + st - 1) / st * st ≤ L + st - 1 := Nat.div_mul_le_self _ _
  have h2 : L + st - 1 < ((L + st - 1) / st + 1) * st := by
    have := Nat.lt_succ_iff.mpr (Nat.le_refl ((L + st - 1) / st))
    exact (Nat.div_lt_iff_lt_mul hst).mp this
  generalize (L + st - 1) / st = n at h1 h2
  rw [Int.ceil_eq_iff]
  constructor
  · rw [lt_div_iff₀ hq]
    have : ((n : Int) - 1) * (st : Int) < (L : Int) := by
      have e : ((n : Int) - 1) * (st : Int) = (n : Int) * st - st := by ring
      have h1' : (n : Int) * (st : Int) ≤ (L : Int) + st - 1 := by
        have : ((n * st : Nat) : Int) ≤ ((L + st - 1 : Nat) : Int) := by exact_mod_cast h1
        push_cast at this
        omega
      omega
    exact_mod_cast this
  · rw [div_le_iff₀ hq]
    have : (L : Int) ≤ (n : Int) * (st : Int) := by
      have h2' : ((L + st - 1 : Nat) : Int) < (((n + 1) * st : Nat) : Int) := by exact_mod_cast h2
      push_cast at h2'
      have e : ((n : Int) + 1) * (st : Int) = (n : Int) * st + st := by ring
      omega
    exact_mod_cast this

theorem chunkTextLoop_diverges {α : Type} (text : List α) (size overlap : Int)
    (hne : text ≠ []) (h : size ≤ overlap) :
    ∀ (fuel : Nat) (i : Int) (acc : List (List α)), i ≤ 0 →
      chunkTextLoop text size overlap fuel i acc = none := by
  have hL : 0 < text.length := List.length_pos.mpr hne
  intro fuel
  induction fuel with
  | zero => intro i acc _; rfl
  | succ fuel ih =>
    intro i acc hi
    have hi' : i < (text.length : Int) := by omega
    rw [chunkTextLoop, if_pos hi']
    exact ih _ _ (by omega)

theorem chunkTextLoop_terminates {α : Type} (text : List α) (size overlap : Int)
    (h : overlap < size) :
    ∀ (fuel : Nat) (i : Int) (acc : List (List α)), 0 < fuel → (text.length : Int) < fuel + i →
      (chunkTextLoop text size overlap fuel i acc).isSome = true := by
  intro fuel
  induction fuel with
  | zero => intro i acc h0 _; omega
  | succ fuel ih =>
    intro i acc _ hf
    by_cases hi : i < (text.length : Int)
    · rw [chunkTextLoop, if_pos hi]
      exact ih _ _ (by omega) (by omega)
    · rw [chunkTextLoop, if_neg hi]
      rfl

theorem substring_window {α : Type} (text : List α) (a size : Nat) :
    substring text a (min text.length (a + size)) = (text.drop a).take size := by
  unfold substring
  rw [List.drop_take, List.take_eq_take, List.length_drop]
  omega

/-! ### Claims about the chunker -/

/-- C1, as the code has it: with `size > overlap >= 0` the loop runs while the
start offset is below the length `L`, so `chunkText` returns exactly
`ceil(L / (size - overlap))` chunks; a 700-unit text with 300 / 50 gives the
three chunks that start at offsets 0, 250 and 500. -/
theorem chunkText_count {α : Type} (text : List α) (size overlap : Nat) (h : overlap < size)
    (fuel : Nat) (hf : text.length < fuel) :
    ∃ chunks, chunkText fuel text (size : Int) (overlap : Int) = some chunks
      ∧ (chunks.length : Int)
          = ⌈((text.length : Int) : ℚ) / (((size : Int) - (overlap : Int) : Int) : ℚ)⌉
      ∧ (text.length = 700 → size = 300 → overlap = 50 →
          chunks = [substring text 0 300, substring text 250 550, substring text 500 700]) := by
  refine ⟨_, chunkText_eq text size overlap h fuel hf, ?_, ?_⟩
  · have e : ((size : Int) - (overlap : Int)) = ((size - overlap : Nat) : Int) := by omega
    rw [e, ceil_div_eq _ _ (by omega)]
    simp
  · intro hL hs ho
    subst hs ho
    have e1 : substring text 0 300 = (text.drop (0 * (300 - 50))).take 300 := by
      have := substring_window text 0 300
      rw [hL] at this
      simpa using this
    have e2 : substring text 250 550 = (text.drop (1 * (300 - 50))).take 300 := by
      have := substring_window text 250 300
      rw [hL] at this
      simpa using this
    have e3 : substring text 500 700 = (text.drop (2 * (300 - 50))).take 300 := by
      have := substring_window text 500 300
      rw [hL] at this
      simpa using this
    rw [hL, e1, e2, e3]
    rfl

/-- C1 at a concrete input: the chunk count of a 700-unit text with the
defaults. -/
theorem chunkText_count_witness :
    ∃ chunks, chunkText 701 (List.replicate 700 97) ((300 : Nat) : Int) ((50 : Nat) : Int)
        = some chunks
      ∧ (chunks.length : Int)
          = ⌈(((List.replicate 700 97).length : Int) : ℚ)
              / ((((300 : Nat) : Int) - ((50 : Nat) : Int) : Int) : ℚ)⌉
      ∧ ((List.replicate 700 97).length = 700 → 300 = 300 → 50 = 50 →
          chunks = [substring (List.replicate 700 97) 0 300,
            substring (List.replicate 700 97) 250 550,
            substring (List.replicate 700 97) 500 700]) :=
  chunkText_count (List.replicate 700 97) 300 50 (by decide) 701
    (by rw [List.length_replicate]; decide)

/-- C1 as stated fails: a one-unit text with the defaults 300 / 50 yields one
chunk, while `ceil(max(L - overlap, 0) / (size - overlap))` is 0. -/
theorem chunkText_count_counterexample :
    chunkText 2 (utf16 "a") defaultChunkSize defaultOverlap = some [utf16 "a"]
      ∧ specChunkCount (utf16 "a").length defaultChunkSize defaultOverlap = 0
      ∧ (([utf16 "a"] : List JSString).length : Int)
          ≠ specChunkCount (utf16 "a").length defaultChunkSize defaultOverlap := by
  have h : specChunkCount (utf16 "a").length defaultChunkSize defaultOverlap = 0 := by
    have e : (utf16 "a").length = 1 := by decide
    rw [e]
    simp [specChunkCount, defaultChunkSize, defaultOverlap]
  refine ⟨by decide, h, ?_⟩
  rw [h]
  decide

/-- With `size - overlap > 0` the loop of `chunkText` ends on every text: a
step budget above the length returns the chunk list. -/
theorem chunkText_returns {α : Type} (text : List α) (size overlap : Int)
    (h : overlap < size) (fuel : Nat) (hf : text.length < fuel) :
    ∃ chunks, chunkText fuel text size overlap = some chunks := by
  have := chunkTextLoop_terminates text size overlap h fuel 0 [] (by omega) (by omega)
  exact Option.isSome_iff_exists.mp this

/-- C4, as the code has it: for every non-empty text, when `overlap >= size`
(so `size - overlap <= 0`) `chunkText` raises nothing and does not return: the
loop counter starts at 0 and never exceeds it, so the loop test holds at every
step and no step budget ends the loop. -/
theorem chunkText_never_returns {α : Type} (text : List α) (size overlap : Int)
    (hne : text ≠ []) (h : size ≤ overlap) (fuel : Nat) :
    chunkText fuel text size overlap = none := by
  unfold chunkText
  exact chunkTextLoop_diverges text size overlap hne h fuel 0 [] (le_refl 0)

/-- C4 at a concrete input: the text "ab" with size 50 and overlap 50. -/
theorem chunkText_never_returns_witness :
    chunkText 1000 (utf16 "ab") 50 50 = none :=
  chunkText_never_returns (utf16 "ab") 50 50 (by decide) (by decide) 1000

/-- C4 as stated fails: on the text "a" with size 1 and overlap 1 no step
budget lets `chunkText` return, and it has no error result. -/
theorem chunkText_overlap_counterexample :
    ¬ ∃ fuel chunks, chunkText fuel (utf16 "a") 1 1 = some chunks := by
  rintro ⟨fuel, chunks, hc⟩
  have := chunkTextLoop_diverges (utf16 "a") 1 1 (by decide) (by decide) fuel 0 [] (by decide)
  rw [chunkText, this] at hc
  exact Option.noConfusion hc

/-- C7: with `size > overlap >= 0`, chunk `j` is the substring of the text
from offset `j * (size - overlap)` up to `min(L, j * (size - overlap) + size)`,
and every position `p < L` lies inside at least one chunk. -/
theorem chunkText_covers {α : Type} (text : List α) (size overlap : Nat) (h : overlap < size)
    (fuel : Nat) (hf : text.length < fuel) :
    ∃ chunks, chunkText fuel text (size : Int) (overlap : Int) = some chunks
      ∧ (∀ j, j < chunks.length →
          chunks[j]? = some (substring text (j * (size - overlap))
            (min text.length (j * (size - overlap) + size))))
      ∧ (∀ p, p < text.length → ∃ j, j < chunks.length
          ∧ j * (size - overlap) ≤ p ∧ p < min text.length (j * (size - overlap) + size)) := by
  have hst : 0 < size - overlap := by omega
  refine ⟨_, chunkText_eq text size overlap h fuel hf, ?_, ?_⟩
  · intro j hj
    rw [List.length_map, List.length_range] at hj
    rw [List.getElem?_map, List.getElem?_range hj, substring_window]
    rfl
  · intro p hp
    refine ⟨p / (size - overlap), ?_, ?_, ?_⟩
    · rw [List.length_map, List.length_range, Nat.div_lt_iff_lt_mul hst]
      have h2 : text.length + (size - overlap) - 1
          < ((text.length + (size - overlap) - 1) / (size - overlap) + 1) * (size - overlap) :=
        (Nat.div_lt_iff_lt_mul hst).mp (Nat.lt_succ_iff.mpr (Nat.le_refl _))
      rw [Nat.add_mul, Nat.one_mul] at h2
      omega
    · exact Nat.div_mul_le_self _ _
    · have h2 : p < (p / (size - overlap) + 1) * (size - overlap) :=
        (Nat.div_lt_iff_lt_mul hst).mp (Nat.lt_succ_iff.mpr (Nat.le_refl _))
      rw [Nat.add_mul, Nat.one_mul] at h2
      rw [lt_min_iff]
      exact ⟨hp, by omega⟩

/-- C7 at a concrete input: a seven-unit text with size 3 and overlap 1. -/
theorem chunkText_covers_witness :
    ∃ chunks, chunkText 8 (utf16 "abcdefg") ((3 : Nat) : Int) ((1 : Nat) : Int) = some chunks
      ∧ (∀ j, j < chunks.length →
          chunks[j]? = some (substring (utf16 "abcdefg") (j * (3 - 1))
            (min (utf16 "abcdefg").length (j * (3 - 1) + 3))))
      ∧ (∀ p, p < (utf16 "abcdefg").length → ∃ j, j < chunks.length
          ∧ j * (3 - 1) ≤ p ∧ p < min (utf16 "abcdefg").length (j * (3 - 1) + 3)) :=
  chunkText_covers (utf16 "abcdefg") 3 1 (by decide) 8 (by decide)

/-! ### Claims about the upload route -/

theorem uploadLoop_eq (embedText : Nat → JSString → Option (List ℝ)) (originalname : JSString) :
    ∀ (chunks : List JSString) (k : Nat) (db : List Fragment),
      uploadLoop embedText originalname chunks k db
        = db ++ (chunks.enumFrom k).filterMap
            (fun p => (embedText p.1 p.2).map (fun e => Fragment.mk p.2 e originalname)) := by
  intro chunks
  induction chunks with
  | nil => intro k db; simp [uploadLoop]
  | cons c rest ih =>
    intro k db
    rw [uploadLoop]
    cases hc : embedText k c with
    | none => simp [ih, List.enumFrom, List.filterMap_cons, hc]
    | some e => simp [ih, List.enumFrom, List.filterMap_cons, hc]

/-- C2, as the code has it: the upload succeeds and its `chunks` field is
`chunks.length`, the number of chunks `chunkText` produced, whether or not
their embedding calls succeeded; the rows appended to the store are those of
the chunks whose embedding call succeeded, in order. -/
theorem upload_reports_chunk_count (embedText : Nat → JSString → Option (List ℝ))
    (originalname text : JSString) (db : List Fragment) (fuel : Nat) (hf : text.length < fuel) :
    ∃ chunks, chunkText fuel text defaultChunkSize defaultOverlap = some chunks
      ∧ upload fuel embedText originalname text db
          = some (UploadResponse.mk true chunks.length,
              db ++ chunks.enum.filterMap
                (fun p => (embedText p.1 p.2).map (fun e => Fragment.mk p.2 e originalname)))
      ∧ (chunks.enum.filterMap
            (fun p => (embedText p.1 p.2).map (fun e => Fragment.mk p.2 e originalname))).length
          = chunks.enum.countP (fun p => (embedText p.1 p.2).isSome) := by
  have hsome := chunkTextLoop_terminates text defaultChunkSize defaultOverlap (by decide)
    fuel 0 [] (by omega) (by omega)
  obtain ⟨chunks, hc⟩ : ∃ chunks, chunkText fuel text defaultChunkSize defaultOverlap
      = some chunks := Option.isSome_iff_exists.mp hsome
  refine ⟨chunks, hc, ?_, ?_⟩
  · rw [upload, hc]
    simp only [uploadLoop_eq, List.enum]
  · generalize chunks.enum = l
    induction l with
    | nil => rfl
    | cons p l ih =>
      cases hp : embedText p.1 p.2 with
      | none => simp [List.filterMap_cons, List.countP_cons, hp, ih]
      | some e => simp [List.filterMap_cons, List.countP_cons, hp, ih]

/-- C2 at a concrete input: a two-unit text whose single embedding call
succeeds. -/
theorem upload_reports_chunk_count_witness :
    ∃ chunks, chunkText 3 (utf16 "ab") defaultChunkSize defaultOverlap = some chunks
      ∧ upload 3 (fun _ _ => some []) (utf16 "a.txt") (utf16 "ab") []
          = some (UploadResponse.mk true chunks.length,
              [] ++ chunks.enum.filterMap
                (fun p => ((fun _ _ => some []) p.1 p.2 : Option (List ℝ)).map
                  (fun e => Fragment.mk p.2 e (utf16 "a.txt"))))
      ∧ (chunks.enum.filterMap
            (fun p => ((fun _ _ => some []) p.1 p.2 : Option (List ℝ)).map
              (fun e => Fragment.mk p.2 e (utf16 "a.txt")))).length
          = chunks.enum.countP (fun p => ((fun _ _ => some []) p.1 p.2 : Option (List ℝ)).isSome) :=
  upload_reports_chunk_count (fun _ _ => some []) (utf16 "a.txt") (utf16 "ab") [] 3 (by decide)

set_option maxRecDepth 100000 in
/-- C2 as stated fails: a 700-unit text gives 3 chunks; when the second
embedding call fails the upload still succeeds and reports `chunks: 3`, while
2 rows were appended to the store. -/
theorem upload_count_counterexample :
    (upload 701 (fun k _ => if k = 1 then none else some []) (utf16 "a.txt")
        (List.replicate 700 97) []).map (fun r => (r.1.success, r.1.chunks, r.2.length))
      = some (true, 3, 2) := by
  decide

/-! ### The cosine score -/

theorem underflowBound_pos : 0 < JSNumber.underflowBound := by
  unfold JSNumber.underflowBound
  positivity

theorem underflowBound_lt_one : JSNumber.underflowBound < 1 := by
  unfold JSNumber.underflowBound
  rw [div_lt_one (by positivity)]
  exact one_lt_pow₀ (by norm_num) (by norm_num)

theorem one_lt_overflowBound : 1 < JSNumber.overflowBound := by
  unfold JSNumber.overflowBound
  have h : (2 : ℝ) ^ 1024 = 2 ^ 970 * 2 ^ 54 := by rw [← pow_add]
  have h1 : (1 : ℝ) ≤ 2 ^ 970 := one_le_pow₀ (by norm_num)
  have h2 : (2 : ℝ) ^ 54 = 18014398509481984 := by norm_num
  rw [h, h2]
  linarith

theorem ofSum_of_lt (x : ℝ) (h : |x| < JSNumber.overflowBound) :
    JSNumber.ofSum x = JSNumber.fin x := by
  rw [JSNumber.ofSum, if_neg (not_le.mpr h)]

theorem ofProduct_of_lt (x : ℝ) (h : |x| < JSNumber.overflowBound) :
    JSNumber.ofProduct x = JSNumber.fin (if |x| ≤ JSNumber.underflowBound then 0 else x) := by
  rw [JSNumber.ofProduct, if_neg (not_le.mpr h)]
  split <;> rfl

theorem ofProduct_of_range (x : ℝ) (h1 : JSNumber.underflowBound < |x|)
    (h2 : |x| < JSNumber.overflowBound) : JSNumber.ofProduct x = JSNumber.fin x := by
  rw [ofProduct_of_lt x h2, if_neg (not_le.mpr h1)]

theorem ofSum_zero : JSNumber.ofSum 0 = JSNumber.fin 0 :=
  ofSum_of_lt 0 (by rw [abs_zero]; linarith [one_lt_overflowBound])

theorem ofSum_one : JSNumber.ofSum 1 = JSNumber.fin 1 :=
  ofSum_of_lt 1 (by rw [abs_one]; exact one_lt_overflowBound)

theorem ofProduct_zero : JSNumber.ofProduct 0 = JSNumber.fin 0 := by
  rw [ofProduct_of_lt 0 (by rw [abs_zero]; linarith [one_lt_overflowBound])]
  simp

theorem ofProduct_one : JSNumber.ofProduct 1 = JSNumber.fin 1 :=
  ofProduct_of_range 1 (by rw [abs_one]; exact underflowBound_lt_one)
    (by rw [abs_one]; exact one_lt_overflowBound)

theorem JSNumber.nan_add (y : JSNumber) : JSNumber.add JSNumber.nan y = JSNumber.nan := by
  cases y <;> rfl

theorem JSNumber.add_nan (x : JSNumber) : JSNumber.add x JSNumber.nan = JSNumber.nan := by
  cases x <;> rfl

theorem JSNumber.mul_nan (x : JSNumber) : JSNumber.mul x JSNumber.nan = JSNumber.nan := by
  cases x <;> rfl

theorem JSNumber.nan_div (y : JSNumber) : JSNumber.div JSNumber.nan y = JSNumber.nan := by
  cases y <;> rfl

theorem JSNumber.div_nan (x : JSNumber) : JSNumber.div x JSNumber.nan = JSNumber.nan := by
  cases x <;> rfl

theorem sumSquares_nonneg (l : List ℝ) : 0 ≤ (l.map (fun x => x * x)).sum := by
  induction l with
  | nil => simp
  | cons a l ih =>
    rw [List.map_cons, List.sum_cons]
    exact add_nonneg (mul_self_nonneg a) ih

theorem squaresReduce_range (l : List ℝ) :
    ∀ (i : Nat) (s : ℝ), 0 ≤ s → s + (l.map (fun x => x * x)).sum < JSNumber.overflowBound →
      ∃ r, arrayReduceFrom
            (fun sum a _ => JSNumber.add sum (JSNumber.mul (JSNumber.fin a) (JSNumber.fin a)))
            l i (JSNumber.fin s) = JSNumber.fin r
        ∧ s ≤ r ∧ r ≤ s + (l.map (fun x => x * x)).sum
        ∧ ∀ x ∈ l, JSNumber.underflowBound < x * x → s + x * x ≤ r := by
  induction l with
  | nil =>
    intro i s _ _
    exact ⟨s, rfl, le_refl _, by simp, fun x hx => absurd hx (List.not_mem_nil x)⟩
  | cons a l ih =>
    intro i s hs hlt
    rw [List.map_cons, List.sum_cons] at hlt
    have ha : 0 ≤ a * a := mul_self_nonneg a
    have hl := sumSquares_nonneg l
    have hU := underflowBound_pos
    have habs : |a * a| = a * a := abs_of_nonneg ha
    have hprod : JSNumber.mul (JSNumber.fin a) (JSNumber.fin a)
        = JSNumber.fin (if |a * a| ≤ JSNumber.underflowBound then 0 else a * a) :=
      ofProduct_of_lt (a * a) (by rw [habs]; linarith)
    obtain ⟨c, hc, hc0, hca, hcU⟩ : ∃ c : ℝ,
        (if |a * a| ≤ JSNumber.underflowBound then 0 else a * a) = c ∧ 0 ≤ c ∧ c ≤ a * a
          ∧ (JSNumber.underflowBound < a * a → c = a * a) := by
      by_cases hu : |a * a| ≤ JSNumber.underflowBound
      · refine ⟨0, if_pos hu, le_refl _, ha, ?_⟩
        intro h
        rw [habs] at hu
        linarith
      · exact ⟨a * a, if_neg hu, ha, le_refl _, fun _ => rfl⟩
    rw [hc] at hprod
    have hsum : JSNumber.add (JSNumber.fin s) (JSNumber.fin c) = JSNumber.fin (s + c) :=
      ofSum_of_lt (s + c) (by rw [abs_of_nonneg (by linarith)]; linarith)
    obtain ⟨r, hr, hr1, hr2, hr3⟩ := ih (i + 1) (s + c) (by linarith) (by linarith)
    refine ⟨r, ?_, by linarith, ?_, ?_⟩
    · rw [arrayReduceFrom, hprod, hsum, hr]
    · rw [List.map_cons, List.sum_cons]
      linarith
    · intro x hx hxU
      rcases List.mem_cons.mp hx with rfl | hx
      · rw [hcU hxU] at hr1
        exact hr1
      · have := hr3 x hx hxU
        linarith

theorem squaresReduce_form (l : List ℝ) :
    ∀ (i : Nat) (acc : JSNumber),
      (acc = JSNumber.inf false ∨ ∃ s, 0 ≤ s ∧ acc = JSNumber.fin s) →
      (arrayReduceFrom
          (fun sum a _ => JSNumber.add sum (JSNumber.mul (JSNumber.fin a) (JSNumber.fin a)))
          l i acc = JSNumber.inf false
        ∨ ∃ s, 0 ≤ s ∧ arrayReduceFrom
          (fun sum a _ => JSNumber.add sum (JSNumber.mul (JSNumber.fin a) (JSNumber.fin a)))
          l i acc = JSNumber.fin s) := by
  induction l with
  | nil => intro i acc h; exact h
  | cons a l ih =>
    intro i acc h
    rw [arrayReduceFrom]
    apply ih
    have ha : 0 ≤ a * a := mul_self_nonneg a
    have hneg : decide (a * a < 0) = false := decide_eq_false (not_lt.mpr ha)
    have hprod : JSNumber.mul (JSNumber.fin a) (JSNumber.fin a) = JSNumber.inf false
        ∨ ∃ c, 0 ≤ c ∧ JSNumber.mul (JSNumber.fin a) (JSNumber.fin a) = JSNumber.fin c := by
      show JSNumber.ofProduct (a * a) = _ ∨ ∃ c, 0 ≤ c ∧ JSNumber.ofProduct (a * a) = _
      unfold JSNumber.ofProduct
      split
      · left; rw [hneg]
      · split
        · exact Or.inr ⟨0, le_refl _, rfl⟩
        · exact Or.inr ⟨a * a, ha, rfl⟩
    rcases h with rfl | ⟨s, hs, rfl⟩
    · rcases hprod with hp | ⟨c, _, hp⟩
      · rw [hp]; exact Or.inl rfl
      · rw [hp]; exact Or.inl rfl
    · rcases hprod with hp | ⟨c, hc, hp⟩
      · rw [hp]; exact Or.inl rfl
      · rw [hp]
        show JSNumber.ofSum (s + c) = _ ∨ ∃ t, 0 ≤ t ∧ JSNumber.ofSum (s + c) = _
        unfold JSNumber.ofSum
        split
        · left
          rw [decide_eq_false (not_lt.mpr (by linarith))]
        · exact Or.inr ⟨s + c, by linarith, rfl⟩

theorem magnitude_form (l : List ℝ) :
    JSNumber.sqrt (arrayReduce
        (fun sum a _ => JSNumber.add sum (JSNumber.mul (JSNumber.fin a) (JSNumber.fin a)))
        (JSNumber.fin 0) l) = JSNumber.inf false
      ∨ ∃ m, JSNumber.sqrt (arrayReduce
        (fun sum a _ => JSNumber.add sum (JSNumber.mul (JSNumber.fin a) (JSNumber.fin a)))
        (JSNumber.fin 0) l) = JSNumber.fin m := by
  rw [arrayReduce]
  rcases squaresReduce_form l 0 (JSNumber.fin 0) (Or.inr ⟨0, le_refl _, rfl⟩) with h | ⟨s, hs, h⟩
  · rw [h]; exact Or.inl rfl
  · rw [h, JSNumber.sqrt, if_neg (not_lt.mpr hs)]
    exact Or.inr ⟨_, rfl⟩

theorem squaresReduce_zero (l : List ℝ) (h : ∀ x ∈ l, x = 0) :
    ∀ (i : Nat), arrayReduceFrom
        (fun sum a _ => JSNumber.add sum (JSNumber.mul (JSNumber.fin a) (JSNumber.fin a)))
        l i (JSNumber.fin 0) = JSNumber.fin 0 := by
  induction l with
  | nil => intro i; rfl
  | cons a l ih =>
    intro i
    rw [arrayReduceFrom, h a (List.mem_cons_self _ _)]
    have e : JSNumber.add (JSNumber.fin 0) (JSNumber.mul (JSNumber.fin 0) (JSNumber.fin 0))
        = JSNumber.fin 0 := by
      show JSNumber.add (JSNumber.fin 0) (JSNumber.ofProduct (0 * 0)) = _
      rw [mul_zero, ofProduct_zero]
      show JSNumber.ofSum (0 + 0) = _
      rw [add_zero, ofSum_zero]
    rw [e]
    exact ih (fun x hx => h x (List.mem_cons_of_mem _ hx)) _

theorem dotReduce_nan (vecB : List ℝ) (l : List ℝ) :
    ∀ (i : Nat),
      arrayReduceFrom
        (fun sum a i => JSNumber.add sum (JSNumber.mul (JSNumber.fin a) (JSNumber.ofElement vecB[i]?)))
        l i JSNumber.nan
      = JSNumber.nan := by
  induction l with
  | nil => intro i; rfl
  | cons a l ih =>
    intro i
    rw [arrayReduceFrom, JSNumber.nan_add, ih]

theorem dotReduce_self (vecB : List ℝ) (l : List ℝ) :
    ∀ (i : Nat) (acc : JSNumber), vecB.drop i = l →
      arrayReduceFrom
        (fun sum a i => JSNumber.add sum (JSNumber.mul (JSNumber.fin a) (JSNumber.ofElement vecB[i]?)))
        l i acc
      = arrayReduceFrom
        (fun sum a _ => JSNumber.add sum (JSNumber.mul (JSNumber.fin a) (JSNumber.fin a)))
        l i acc := by
  induction l with
  | nil => intro i acc _; rfl
  | cons a l ih =>
    intro i acc hdrop
    have hi : i < vecB.length := by
      by_contra hge
      rw [List.drop_eq_nil_of_le (not_lt.mp hge)] at hdrop
      exact List.noConfusion hdrop
    rw [List.drop_eq_getElem_cons hi] at hdrop
    have hget : vecB[i] = a := (List.cons.inj hdrop).1
    have htail : vecB.drop (i + 1) = l := (List.cons.inj hdrop).2
    rw [arrayReduceFrom, arrayReduceFrom, List.getElem?_eq_getElem hi, hget]
    exact ih (i + 1) _ htail

theorem dotReduce_zero (vecB : List ℝ) (l : List ℝ)
    (h : (∀ x ∈ l, x = 0) ∨ (∀ y ∈ vecB, y = 0)) :
    ∀ (i : Nat),
      arrayReduceFrom
          (fun sum a i => JSNumber.add sum (JSNumber.mul (JSNumber.fin a) (JSNumber.ofElement vecB[i]?)))
          l i (JSNumber.fin 0) = JSNumber.nan
      ∨ arrayReduceFrom
          (fun sum a i => JSNumber.add sum (JSNumber.mul (JSNumber.fin a) (JSNumber.ofElement vecB[i]?)))
          l i (JSNumber.fin 0) = JSNumber.fin 0 := by
  induction l with
  | nil => intro i; exact Or.inr rfl
  | cons a l ih =>
    intro i
    rw [arrayReduceFrom]
    cases hb : vecB[i]? with
    | none =>
      have e : JSNumber.add (JSNumber.fin 0)
          (JSNumber.mul (JSNumber.fin a) (JSNumber.ofElement none)) = JSNumber.nan := by
        show JSNumber.add (JSNumber.fin 0) (JSNumber.mul (JSNumber.fin a) JSNumber.nan) = _
        rw [JSNumber.mul_nan, JSNumber.add_nan]
      rw [e, dotReduce_nan]
      exact Or.inl rfl
    | some b =>
      have hab : a * b = 0 := by
        rcases h with h | h
        · rw [h a (List.mem_cons_self _ _), zero_mul]
        · rw [h b (List.getElem?_mem hb), mul_zero]
      have e : JSNumber.add (JSNumber.fin 0)
          (JSNumber.mul (JSNumber.fin a) (JSNumber.ofElement (some b)))
          = JSNumber.fin 0 := by
        show JSNumber.add (JSNumber.fin 0) (JSNumber.ofProduct (a * b)) = _
        rw [hab, ofProduct_zero]
        show JSNumber.ofSum (0 + 0) = _
        rw [add_zero, ofSum_zero]
      rw [e]
      exact ih (h.imp (fun h x hx => h x (List.mem_cons_of_mem _ hx)) id) _

/-- C10, as the code has it: when some component of `v` has a square above
the underflow bound `2^-1075` and the sum of the squares of `v` stays below
the overflow bound `2^1024 - 2^970`, `cosineSimilarity(v, v)` is 1 (with the
rounding of in-range results left out). -/
theorem cosineSimilarity_self (v : List ℝ)
    (h1 : ∃ x ∈ v, JSNumber.underflowBound < x * x)
    (h2 : (v.map (fun x => x * x)).sum < JSNumber.overflowBound) :
    cosineSimilarity v v = JSNumber.fin 1 := by
  obtain ⟨r, hr, _, hr2, hr3⟩ := squaresReduce_range v 0 0 (le_refl _) (by rw [zero_add]; exact h2)
  obtain ⟨x, hx, hxU⟩ := h1
  have hrU : JSNumber.underflowBound < r := by
    have := hr3 x hx hxU
    linarith
  have hrT : r < JSNumber.overflowBound := by linarith
  have hpos : 0 < r := lt_trans underflowBound_pos hrU
  unfold cosineSimilarity
  simp only [arrayReduce]
  rw [dotReduce_self v v 0 _ (List.drop_zero v), hr]
  have hsq : JSNumber.sqrt (JSNumber.fin r) = JSNumber.fin (Real.sqrt r) := by
    rw [JSNumber.sqrt, if_neg (not_lt.mpr hpos.le)]
  have hm : JSNumber.mul (JSNumber.fin (Real.sqrt r)) (JSNumber.fin (Real.sqrt r))
      = JSNumber.fin r := by
    show JSNumber.ofProduct (Real.sqrt r * Real.sqrt r) = _
    rw [Real.mul_self_sqrt hpos.le]
    exact ofProduct_of_range r (by rw [abs_of_pos hpos]; exact hrU)
      (by rw [abs_of_pos hpos]; exact hrT)
  rw [hsq, hm]
  show (if r = 0 then _ else JSNumber.ofProduct (r / r)) = _
  rw [if_neg hpos.ne', div_self hpos.ne', ofProduct_one]

/-- C10 at a concrete input: the vector `[3, 4]`. -/
theorem cosineSimilarity_self_witness : cosineSimilarity [3, 4] [3, 4] = JSNumber.fin 1 :=
  cosineSimilarity_self [3, 4]
    ⟨3, by simp, lt_trans underflowBound_lt_one (by norm_num)⟩
    (lt_trans (by norm_num : ((([3, 4] : List ℝ).map (fun x => x * x)).sum < 26))
      (by
        have h : (2 : ℝ) ^ 1024 = 2 ^ 970 * 2 ^ 54 := by rw [← pow_add]
        have h1 : (1 : ℝ) ≤ 2 ^ 970 := one_le_pow₀ (by norm_num)
        have h2 : (2 : ℝ) ^ 54 = 18014398509481984 := by norm_num
        unfold JSNumber.overflowBound
        rw [h, h2]
        linarith))

/-- C10 as stated fails outside the binary64 range: for `v = [1e200]` the
square overflows and the score is `Infinity / Infinity`, for `v = [1e-200]`
the square underflows to 0 and the score is `0 / 0`; both are `NaN`. -/
theorem cosineSimilarity_range_counterexample :
    cosineSimilarity [10 ^ 200] [10 ^ 200] = JSNumber.nan
      ∧ cosineSimilarity [1 / 10 ^ 200] [1 / 10 ^ 200] = JSNumber.nan := by
  have hbig : JSNumber.ofProduct ((10 : ℝ) ^ 200 * 10 ^ 200) = JSNumber.inf false := by
    have hle : JSNumber.overflowBound ≤ |(10 : ℝ) ^ 200 * 10 ^ 200| := by
      rw [abs_of_nonneg (by positivity)]
      unfold JSNumber.overflowBound
      norm_num
    rw [JSNumber.ofProduct, if_pos hle, decide_eq_false (not_lt.mpr (by positivity))]
  have hsmall : JSNumber.ofProduct ((1 : ℝ) / 10 ^ 200 * (1 / 10 ^ 200)) = JSNumber.fin 0 := by
    have hlt : |(1 : ℝ) / 10 ^ 200 * (1 / 10 ^ 200)| ≤ JSNumber.underflowBound := by
      rw [abs_of_nonneg (by positivity)]
      unfold JSNumber.underflowBound
      rw [div_mul_div_comm, one_mul, div_le_div_iff₀ (by positivity) (by positivity)]
      norm_num
    have hnot : ¬ JSNumber.overflowBound ≤ |(1 : ℝ) / 10 ^ 200 * (1 / 10 ^ 200)| := by
      have := underflowBound_lt_one
      have := one_lt_overflowBound
      linarith
    rw [JSNumber.ofProduct, if_neg hnot, if_pos hlt]
  constructor
  · simp only [cosineSimilarity, arrayReduce, arrayReduceFrom, List.getElem?_cons_zero,
      JSNumber.ofElement]
    have e : JSNumber.mul (JSNumber.fin (10 ^ 200)) (JSNumber.fin (10 ^ 200))
        = JSNumber.inf false := hbig
    rw [e]
    rfl
  · simp only [cosineSimilarity, arrayReduce, arrayReduceFrom, List.getElem?_cons_zero,
      JSNumber.ofElement]
    have e : JSNumber.mul (JSNumber.fin (1 / 10 ^ 200)) (JSNumber.fin (1 / 10 ^ 200))
        = JSNumber.fin 0 := hsmall
    rw [e]
    have e2 : JSNumber.add (JSNumber.fin 0) (JSNumber.fin 0) = JSNumber.fin 0 := by
      show JSNumber.ofSum (0 + 0) = _
      rw [add_zero, ofSum_zero]
    rw [e2]
    have e3 : JSNumber.sqrt (JSNumber.fin 0) = JSNumber.fin 0 := by
      rw [JSNumber.sqrt, if_neg (lt_irrefl 0), Real.sqrt_zero]
    rw [e3]
    have e4 : JSNumber.mul (JSNumber.fin 0) (JSNumber.fin 0) = JSNumber.fin 0 := by
      show JSNumber.ofProduct (0 * 0) = _
      rw [mul_zero, ofProduct_zero]
    rw [e4]
    simp [JSNumber.div]

/-- C5, as the code has it: for two vectors (of equal length or not) of which
at least one has zero magnitude (all components 0, or empty),
`cosineSimilarity` returns `NaN`: it computes `0 / 0`, or a quotient whose
numerator or denominator is already `NaN`. -/
theorem cosineSimilarity_zero_magnitude (vecA vecB : List ℝ)
    (h : (∀ x ∈ vecA, x = 0) ∨ (∀ y ∈ vecB, y = 0)) :
    cosineSimilarity vecA vecB = JSNumber.nan := by
  unfold cosineSimilarity
  have hd : arrayReduce
        (fun sum a i => JSNumber.add sum (JSNumber.mul (JSNumber.fin a) (JSNumber.ofElement vecB[i]?)))
        (JSNumber.fin 0) vecA = JSNumber.nan
      ∨ arrayReduce
        (fun sum a i => JSNumber.add sum (JSNumber.mul (JSNumber.fin a) (JSNumber.ofElement vecB[i]?)))
        (JSNumber.fin 0) vecA = JSNumber.fin 0 := dotReduce_zero vecB vecA h 0
  have hden : JSNumber.mul
        (JSNumber.sqrt (arrayReduce
          (fun sum a _ => JSNumber.add sum (JSNumber.mul (JSNumber.fin a) (JSNumber.fin a)))
          (JSNumber.fin 0) vecA))
        (JSNumber.sqrt (arrayReduce
          (fun sum b _ => JSNumber.add sum (JSNumber.mul (JSNumber.fin b) (JSNumber.fin b)))
          (JSNumber.fin 0) vecB)) = JSNumber.nan
      ∨ JSNumber.mul
        (JSNumber.sqrt (arrayReduce
          (fun sum a _ => JSNumber.add sum (JSNumber.mul (JSNumber.fin a) (JSNumber.fin a)))
          (JSNumber.fin 0) vecA))
        (JSNumber.sqrt (arrayReduce
          (fun sum b _ => JSNumber.add sum (JSNumber.mul (JSNumber.fin b) (JSNumber.fin b)))
          (JSNumber.fin 0) vecB)) = JSNumber.fin 0 := by
    have hz : JSNumber.sqrt (JSNumber.fin 0) = JSNumber.fin 0 := by
      rw [JSNumber.sqrt, if_neg (lt_irrefl 0), Real.sqrt_zero]
    rcases h with h | h
    · have hA : arrayReduce
          (fun sum a _ => JSNumber.add sum (JSNumber.mul (JSNumber.fin a) (JSNumber.fin a)))
          (JSNumber.fin 0) vecA = JSNumber.fin 0 := squaresReduce_zero vecA h 0
      rw [hA, hz]
      rcases magnitude_form vecB with hB | ⟨m, hB⟩
      · rw [hB]
        left
        show (if (0 : ℝ) = 0 then JSNumber.nan else _) = _
        rw [if_pos rfl]
      · rw [hB]
        right
        show JSNumber.ofProduct (0 * m) = _
        rw [zero_mul, ofProduct_zero]
    · have hB : arrayReduce
          (fun sum b _ => JSNumber.add sum (JSNumber.mul (JSNumber.fin b) (JSNumber.fin b)))
          (JSNumber.fin 0) vecB = JSNumber.fin 0 := squaresReduce_zero vecB h 0
      rw [hB, hz]
      rcases magnitude_form vecA with hA | ⟨m, hA⟩
      · rw [hA]
        left
        show (if (0 : ℝ) = 0 then JSNumber.nan else _) = _
        rw [if_pos rfl]
      · rw [hA]
        right
        show JSNumber.ofProduct (m * 0) = _
        rw [mul_zero, ofProduct_zero]
  simp only []
  rcases hd with hd | hd
  · rw [hd, JSNumber.nan_div]
  · rcases hden with hden | hden
    · rw [hden, JSNumber.div_nan]
    · rw [hd, hden]
      simp [JSNumber.div]

/-- C5 at a concrete input: a zero vector against `[1, 2]`. -/
theorem cosineSimilarity_zero_magnitude_witness :
    cosineSimilarity [0, 0] [1, 2] = JSNumber.nan :=
  cosineSimilarity_zero_magnitude [0, 0] [1, 2] (Or.inl (by simp))

/-- C5 as stated fails: the score of `[0]` against `[0]` is `NaN`, not 0. -/
theorem cosineSimilarity_zero_counterexample :
    cosineSimilarity [0] [0] = JSNumber.nan ∧ cosineSimilarity [0] [0] ≠ JSNumber.fin 0 := by
  have h : cosineSimilarity [0] [0] = JSNumber.nan := by
    simp [cosineSimilarity, arrayReduce, arrayReduceFrom, JSNumber.add, JSNumber.mul,
      JSNumber.ofElement, JSNumber.sqrt, JSNumber.div, ofSum_zero, ofProduct_zero]
  exact ⟨h, by rw [h]; exact fun hc => JSNumber.noConfusion hc⟩

/-! ### Sorting -/

theorem length_sortInsert {α : Type} (c : α → α → JSNumber) (x : α) :
    ∀ l : List α, (sortInsert c x l).length = l.length + 1 := by
  intro l
  induction l with
  | nil => rfl
  | cons y ys ih =>
    rw [sortInsert]
    split
    · rw [List.length_cons, ih, List.length_cons]
    · rfl

theorem length_arraySort {α : Type} (c : α → α → JSNumber) :
    ∀ l : List α, (arraySort c l).length = l.length := by
  intro l
  induction l with
  | nil => rfl
  | cons x xs ih => rw [arraySort, length_sortInsert, ih, List.length_cons]

theorem perm_sortInsert {α : Type} (c : α → α → JSNumber) (x : α) :
    ∀ l : List α, (sortInsert c x l).Perm (x :: l) := by
  intro l
  induction l with
  | nil => exact List.Perm.refl _
  | cons y ys ih =>
    rw [sortInsert]
    split
    · exact ((List.Perm.cons y ih).trans (List.Perm.swap x y ys))
    · exact List.Perm.refl _

theorem perm_arraySort {α : Type} (c : α → α → JSNumber) :
    ∀ l : List α, (arraySort c l).Perm l := by
  intro l
  induction l with
  | nil => exact List.Perm.refl _
  | cons x xs ih =>
    rw [arraySort]
    exact (perm_sortInsert c x _).trans (List.Perm.cons x ih)

theorem filter_sortInsert {α : Type} (c : α → α → JSNumber) (p : α → Bool)
    (hp : ∀ x y, p x = true → p y = true → ¬ (c x y).isPositive) (x : α) :
    ∀ l : List α, (sortInsert c x l).filter p = (x :: l).filter p := by
  intro l
  induction l with
  | nil => rfl
  | cons y ys ih =>
    rw [sortInsert]
    split
    · rename_i hpos
      rw [List.filter_cons, ih]
      cases hx : p x with
      | false => simp [List.filter_cons, hx]
      | true =>
        have hy : p y = false := by
          cases hy : p y with
          | false => rfl
          | true => exact absurd hpos (hp x y hx hy)
        simp [List.filter_cons, hx, hy]
    · rfl

theorem filter_arraySort {α : Type} (c : α → α → JSNumber) (p : α → Bool)
    (hp : ∀ x y, p x = true → p y = true → ¬ (c x y).isPositive) :
    ∀ l : List α, (arraySort c l).filter p = l.filter p := by
  intro l
  induction l with
  | nil => rfl
  | cons x xs ih =>
    rw [arraySort, filter_sortInsert c p hp, List.filter_cons, List.filter_cons, ih]

theorem sorted_sortInsert {α β : Type} [LinearOrder β] (c : α → α → JSNumber) (k : α → β)
    (x : α) :
    ∀ l : List α, (∀ y ∈ l, (c x y).isPositive ↔ k x < k y) →
      l.Pairwise (fun a b => k b ≤ k a) →
      (sortInsert c x l).Pairwise (fun a b => k b ≤ k a) := by
  intro l
  induction l with
  | nil => intro _ _; exact List.pairwise_singleton _ _
  | cons y ys ih =>
    intro hc hs
    rw [sortInsert]
    rw [List.pairwise_cons] at hs
    split
    · rename_i hpos
      have hxy : k x < k y := (hc y (List.mem_cons_self _ _)).mp hpos
      rw [List.pairwise_cons]
      refine ⟨?_, ih (fun z hz => hc z (List.mem_cons_of_mem _ hz)) hs.2⟩
      intro z hz
      rcases List.mem_cons.mp ((perm_sortInsert c x ys).subset hz) with rfl | hz
      · exact hxy.le
      · exact hs.1 z hz
    · rename_i hpos
      have hxy : k y ≤ k x := not_lt.mp (fun h => hpos ((hc y (List.mem_cons_self _ _)).mpr h))
      rw [List.pairwise_cons]
      refine ⟨?_, List.pairwise_cons.mpr hs⟩
      intro z hz
      rcases List.mem_cons.mp hz with rfl | hz
      · exact hxy
      · exact (hs.1 z hz).trans hxy

theorem sorted_arraySort {α β : Type} [LinearOrder β] (c : α → α → JSNumber) (k : α → β) :
    ∀ l : List α, (∀ x ∈ l, ∀ y ∈ l, (c x y).isPositive ↔ k x < k y) →
      (arraySort c l).Pairwise (fun a b => k b ≤ k a) := by
  intro l
  induction l with
  | nil => intro _; exact List.Pairwise.nil
  | cons x xs ih =>
    intro hc
    rw [arraySort]
    apply sorted_sortInsert c k x
    · intro y hy
      exact hc x (List.mem_cons_self _ _) y
        (List.mem_cons_of_mem _ ((perm_arraySort c xs).subset hy))
    · exact ih (fun a ha b hb => hc a (List.mem_cons_of_mem _ ha) b (List.mem_cons_of_mem _ hb))

theorem sub_self_not_positive (s : JSNumber) : ¬ (JSNumber.sub s s).isPositive := by
  cases s with
  | nan => exact fun h => h
  | inf a => cases a <;> exact fun h => h
  | fin x =>
    show ¬ (JSNumber.ofSum (x + -x)).isPositive
    rw [add_neg_cancel, ofSum_zero]
    exact lt_irrefl (0 : ℝ)

theorem isPositive_sub_iff (a b : JSNumber) (ha : a ≠ JSNumber.nan) (hb : b ≠ JSNumber.nan) :
    (JSNumber.sub b a).isPositive ↔ a.rank < b.rank := by
  cases a with
  | nan => exact absurd rfl ha
  | inf s =>
    cases b with
    | nan => exact absurd rfl hb
    | inf t => cases s <;> cases t <;> simp [JSNumber.sub, JSNumber.neg, JSNumber.add,
        JSNumber.isPositive, JSNumber.rank]
    | fin y => cases s <;> simp [JSNumber.sub, JSNumber.neg, JSNumber.add,
        JSNumber.isPositive, JSNumber.rank, EReal.bot_lt_coe]
  | fin x =>
    cases b with
    | nan => exact absurd rfl hb
    | inf t => cases t <;> simp [JSNumber.sub, JSNumber.neg, JSNumber.add,
        JSNumber.isPositive, JSNumber.rank, EReal.coe_lt_top]
    | fin y =>
      show (JSNumber.ofSum (y + -x)).isPositive ↔ ((x : ℝ) : EReal) < ((y : ℝ) : EReal)
      rw [EReal.coe_lt_coe_iff, JSNumber.ofSum]
      split
      · rename_i hbig
        show decide (y + -x < 0) = false ↔ x < y
        rw [decide_eq_false_iff_not, not_lt]
        constructor
        · intro h0
          rcases h0.lt_or_eq with hlt | heq
          · linarith
          · rw [← heq, abs_zero] at hbig
            linarith [one_lt_overflowBound]
        · intro hlt
          linarith
      · show 0 < y + -x ↔ x < y
        constructor <;> intro hlt <;> linarith

theorem le_iff_rank_le (a b : JSNumber) (ha : a ≠ JSNumber.nan) (hb : b ≠ JSNumber.nan) :
    JSNumber.le a b ↔ a.rank ≤ b.rank := by
  cases a with
  | nan => exact absurd rfl ha
  | inf s =>
    cases b with
    | nan => exact absurd rfl hb
    | inf t => cases s <;> cases t <;> simp [JSNumber.le, JSNumber.rank]
    | fin y => cases s <;> simp [JSNumber.le, JSNumber.rank]
  | fin x =>
    cases b with
    | nan => exact absurd rfl hb
    | inf t => cases t <;> simp [JSNumber.le, JSNumber.rank]
    | fin y => simp [JSNumber.le, JSNumber.rank]

/-! ### Claims about the ranking chain -/

/-- C8: the ranked match list has `min(5, n)` entries for a corpus of `n`
stored fragments. -/
theorem rankedChunks_length (questionEmbedding : List ℝ) (vectorDB : List Fragment) :
    (rankedChunks questionEmbedding vectorDB).length = min 5 vectorDB.length := by
  rw [rankedChunks, List.length_take, length_arraySort, List.length_map]

open Classical in
/-- C3, as the code has it: when no fragment's score is `NaN`, the ranked
matches are in descending order of score, and for each score `s` the matches
that have score `s` are, in their order, an initial part of the corpus
fragments that have score `s` in scan order (ties keep the scan order). -/
theorem rankedChunks_sorted_stable (questionEmbedding : List ℝ) (vectorDB : List Fragment)
    (h : ∀ item ∈ vectorDB,
      cosineSimilarity item.embedding questionEmbedding ≠ JSNumber.nan) :
    (rankedChunks questionEmbedding vectorDB).Pairwise
        (fun a b => JSNumber.le b.similarity a.similarity)
      ∧ ∀ s : JSNumber,
          (rankedChunks questionEmbedding vectorDB).filter (fun m => decide (m.similarity = s))
            <+: (vectorDB.map (scoreItem questionEmbedding)).filter
              (fun m => decide (m.similarity = s)) := by
  have hnn : ∀ m ∈ vectorDB.map (scoreItem questionEmbedding),
      m.similarity ≠ JSNumber.nan := by
    intro m hm
    obtain ⟨item, hitem, rfl⟩ := List.mem_map.mp hm
    exact h item hitem
  constructor
  · have hs := sorted_arraySort (fun a b : RankedChunk => JSNumber.sub b.similarity a.similarity)
      (fun m => m.similarity.rank) (vectorDB.map (scoreItem questionEmbedding))
      (fun x hx y hy => isPositive_sub_iff x.similarity y.similarity (hnn x hx) (hnn y hy))
    have hs' : (rankedChunks questionEmbedding vectorDB).Pairwise
        (fun a b => b.similarity.rank ≤ a.similarity.rank) :=
      hs.sublist (List.take_sublist _ _)
    have hmem : ∀ m ∈ rankedChunks questionEmbedding vectorDB,
        m ∈ vectorDB.map (scoreItem questionEmbedding) := fun m hm =>
      (perm_arraySort _ _).subset ((List.take_sublist _ _).subset hm)
    refine hs'.imp_of_mem ?_
    intro a b ha hb hab
    exact (le_iff_rank_le b.similarity a.similarity (hnn b (hmem b hb)) (hnn a (hmem a ha))).mpr hab
  · intro s
    have hf := filter_arraySort (fun a b : RankedChunk => JSNumber.sub b.similarity a.similarity)
      (fun m => decide (m.similarity = s)) (by
        intro x y hx hy
        beta_reduce at hx hy ⊢
        rw [of_decide_eq_true hx, of_decide_eq_true hy]
        exact sub_self_not_positive s) (vectorDB.map (scoreItem questionEmbedding))
    rw [← hf]
    exact List.IsPrefix.filter _ ( List.take_prefix _ _)

/-- C6, as the code has it: no fragment is excluded for the length of its
embedding. The ranked matches are the first five of a rearrangement of all
the scored fragments; each match carries the score of its own embedding
against the query; a fragment is left out only when five matches were
returned; and when no score is `NaN`, a fragment that was left out has a
score no greater than that of every match. -/
theorem rankedChunks_keeps_every_fragment (questionEmbedding : List ℝ)
    (vectorDB : List Fragment) :
    (∃ l : List RankedChunk, l.Perm (vectorDB.map (scoreItem questionEmbedding))
        ∧ rankedChunks questionEmbedding vectorDB = l.take 5)
      ∧ (∀ m ∈ rankedChunks questionEmbedding vectorDB,
          m.similarity = cosineSimilarity m.embedding questionEmbedding)
      ∧ (∀ item ∈ vectorDB,
          scoreItem questionEmbedding item ∈ rankedChunks questionEmbedding vectorDB
            ∨ (rankedChunks questionEmbedding vectorDB).length = 5)
      ∧ ((∀ item ∈ vectorDB,
            cosineSimilarity item.embedding questionEmbedding ≠ JSNumber.nan) →
          ∀ m ∈ rankedChunks questionEmbedding vectorDB,
            ∀ x ∈ vectorDB.map (scoreItem questionEmbedding),
              x ∉ rankedChunks questionEmbedding vectorDB →
                JSNumber.le x.similarity m.similarity) := by
  have hperm : (arraySort (fun a b : RankedChunk => JSNumber.sub b.similarity a.similarity)
      (vectorDB.map (scoreItem questionEmbedding))).Perm
      (vectorDB.map (scoreItem questionEmbedding)) := perm_arraySort _ _
  have hsub : ∀ m ∈ rankedChunks questionEmbedding vectorDB,
      m ∈ vectorDB.map (scoreItem questionEmbedding) := fun m hm =>
    hperm.subset ((List.take_sublist _ _).subset hm)
  refine ⟨⟨_, hperm, rfl⟩, ?_, ?_, ?_⟩
  · intro m hm
    obtain ⟨item, _, rfl⟩ := List.mem_map.mp (hsub m hm)
    rfl
  · intro item hitem
    by_cases hlen : vectorDB.length ≤ 5
    · left
      rw [rankedChunks, List.take_of_length_le
        (by rw [length_arraySort, List.length_map]; exact hlen)]
      exact hperm.symm.subset (List.mem_map_of_mem _ hitem)
    · right
      rw [rankedChunks, List.length_take, length_arraySort, List.length_map]
      omega
  · intro h m hm x hx hxn
    have hnn : ∀ y ∈ vectorDB.map (scoreItem questionEmbedding),
        y.similarity ≠ JSNumber.nan := by
      intro y hy
      obtain ⟨item, hitem, rfl⟩ := List.mem_map.mp hy
      exact h item hitem
    have hs := sorted_arraySort (fun a b : RankedChunk => JSNumber.sub b.similarity a.similarity)
      (fun m => m.similarity.rank) (vectorDB.map (scoreItem questionEmbedding))
      (fun a ha b hb => isPositive_sub_iff a.similarity b.similarity (hnn a ha) (hnn b hb))
    have hxs : x ∈ arraySort (fun a b : RankedChunk => JSNumber.sub b.similarity a.similarity)
        (vectorDB.map (scoreItem questionEmbedding)) := hperm.symm.subset hx
    rw [← List.take_append_drop 5 (arraySort
      (fun a b : RankedChunk => JSNumber.sub b.similarity a.similarity)
      (vectorDB.map (scoreItem questionEmbedding)))] at hxs
    rcases List.mem_append.mp hxs with hxt | hxd
    · exact absurd hxt hxn
    · have hrel := List.Sorted.rel_of_mem_take_of_mem_drop hs hm hxd
      exact (le_iff_rank_le x.similarity m.similarity (hnn x hx) (hnn m (hsub m hm))).mpr hrel

open Classical in
/-- C3 at a concrete input: two fragments with the same embedding, hence
equal scores. -/
theorem rankedChunks_sorted_stable_witness :
    (rankedChunks [1] [Fragment.mk (utf16 "x") [1] (utf16 "a.txt"),
        Fragment.mk (utf16 "y") [1] (utf16 "b.txt")]).Pairwise
        (fun a b => JSNumber.le b.similarity a.similarity)
      ∧ ∀ s : JSNumber,
          (rankedChunks [1] [Fragment.mk (utf16 "x") [1] (utf16 "a.txt"),
              Fragment.mk (utf16 "y") [1] (utf16 "b.txt")]).filter
              (fun m => decide (m.similarity = s))
            <+: ([Fragment.mk (utf16 "x") [1] (utf16 "a.txt"),
                Fragment.mk (utf16 "y") [1] (utf16 "b.txt")].map (scoreItem [1])).filter
              (fun m => decide (m.similarity = s)) :=
  rankedChunks_sorted_stable [1] [Fragment.mk (utf16 "x") [1] (utf16 "a.txt"),
      Fragment.mk (utf16 "y") [1] (utf16 "b.txt")] (by
    intro item hitem
    have he : item.embedding = [1] := by
      rcases List.mem_cons.mp hitem with rfl | hitem
      · rfl
      · rcases List.mem_cons.mp hitem with rfl | hitem
        · rfl
        · cases hitem
    have hs : cosineSimilarity [1] [1] = JSNumber.fin 1 := by
      norm_num [cosineSimilarity, arrayReduce, arrayReduceFrom, JSNumber.add, JSNumber.mul,
        JSNumber.ofElement, JSNumber.sqrt, JSNumber.div, ofSum_zero, ofSum_one, ofProduct_zero,
        ofProduct_one]
    rw [he, hs]
    exact fun hc => JSNumber.noConfusion hc)

/-- C3 as stated fails: with query `[1, 0]` and stored embeddings `[0, 1]`,
`[0, 0]`, `[1, 0]` (scores 0, `NaN`, 1) the comparator returns `NaN` against
the middle fragment, the array is left as it is, and the fragment of score 0
is ranked before the fragment of score 1. -/
theorem rankedChunks_order_counterexample :
    (rankedChunks [1, 0] [Fragment.mk (utf16 "a") [0, 1] (utf16 "f.txt"),
        Fragment.mk (utf16 "b") [0, 0] (utf16 "f.txt"),
        Fragment.mk (utf16 "c") [1, 0] (utf16 "f.txt")]).map (fun m => (m.chunk, m.similarity))
      = [(utf16 "a", JSNumber.fin 0), (utf16 "b", JSNumber.nan), (utf16 "c", JSNumber.fin 1)]
    ∧ ¬ JSNumber.le (JSNumber.fin 1) (JSNumber.fin 0) := by
  have hA : cosineSimilarity [0, 1] [1, 0] = JSNumber.fin 0 := by
    norm_num [cosineSimilarity, arrayReduce, arrayReduceFrom, JSNumber.add, JSNumber.mul,
      JSNumber.ofElement, JSNumber.sqrt, JSNumber.div, ofSum_zero, ofSum_one, ofProduct_zero,
      ofProduct_one]
  have hB : cosineSimilarity [0, 0] [1, 0] = JSNumber.nan := by
    norm_num [cosineSimilarity, arrayReduce, arrayReduceFrom, JSNumber.add, JSNumber.mul,
      JSNumber.ofElement, JSNumber.sqrt, JSNumber.div, ofSum_zero, ofSum_one, ofProduct_zero,
      ofProduct_one]
  have hC : cosineSimilarity [1, 0] [1, 0] = JSNumber.fin 1 := by
    norm_num [cosineSimilarity, arrayReduce, arrayReduceFrom, JSNumber.add, JSNumber.mul,
      JSNumber.ofElement, JSNumber.sqrt, JSNumber.div, ofSum_zero, ofSum_one, ofProduct_zero,
      ofProduct_one]
  constructor
  · simp [rankedChunks, scoreItem, arraySort, sortInsert, hA, hB, hC, JSNumber.sub,
      JSNumber.add, JSNumber.neg, JSNumber.isPositive]
  · show ¬ ((1 : ℝ) ≤ 0)
    norm_num

/-- C6 as stated fails: against the query `[1, 0]` (length 2) the fragment
with embedding `[1]` (length 1) is ranked, with score 1, and so is the
fragment with embedding `[1, 0, 0]` (length 3), with score `NaN`. -/
theorem rankedChunks_mismatch_counterexample :
    (rankedChunks [1, 0] [Fragment.mk (utf16 "x") [1] (utf16 "a.txt"),
        Fragment.mk (utf16 "y") [1, 0, 0] (utf16 "a.txt")]).map
        (fun m => (m.chunk, m.embedding.length, m.similarity))
      = [(utf16 "x", 1, JSNumber.fin 1), (utf16 "y", 3, JSNumber.nan)] := by
  have hA : cosineSimilarity [1] [1, 0] = JSNumber.fin 1 := by
    norm_num [cosineSimilarity, arrayReduce, arrayReduceFrom, JSNumber.add, JSNumber.mul,
      JSNumber.ofElement, JSNumber.sqrt, JSNumber.div, ofSum_zero, ofSum_one, ofProduct_zero,
      ofProduct_one]
  have hB : cosineSimilarity [1, 0, 0] [1, 0] = JSNumber.nan := by
    norm_num [cosineSimilarity, arrayReduce, arrayReduceFrom, JSNumber.add, JSNumber.mul,
      JSNumber.ofElement, JSNumber.sqrt, JSNumber.div, ofSum_zero, ofSum_one, ofProduct_zero,
      ofProduct_one]
  simp [rankedChunks, scoreItem, arraySort, sortInsert, hA, hB, JSNumber.sub,
    JSNumber.add, JSNumber.neg, JSNumber.isPositive]

/-! ### Context assembly -/

theorem firstAppearances_subset {α : Type} [DecidableEq α] :
    ∀ (l : List α) (a : α), a ∈ firstAppearances l → a ∈ l := by
  intro l
  induction l with
  | nil => intro a h; exact h
  | cons b l ih =>
    intro a h
    rw [firstAppearances] at h
    rcases List.mem_cons.mp h with rfl | h
    · exact List.mem_cons_self _ _
    · exact List.mem_cons_of_mem _ (ih a (List.mem_filter.mp h).1)

theorem firstAppearances_filter {α : Type} [DecidableEq α] (p : α → Bool) :
    ∀ l : List α, firstAppearances (l.filter p) = (firstAppearances l).filter p := by
  intro l
  induction l with
  | nil => rfl
  | cons a l ih =>
    cases hp : p a with
    | true =>
      rw [List.filter_cons_of_pos hp, firstAppearances, firstAppearances,
        List.filter_cons_of_pos hp, ih, List.filter_filter, List.filter_filter]
      congr 1
      apply List.filter_congr
      intro x _
      exact Bool.and_comm _ _
    | false =>
      have hp' : ¬ (p a = true) := by rw [hp]; exact Bool.false_ne_true
      rw [List.filter_cons_of_neg hp', firstAppearances, List.filter_cons_of_neg hp', ih,
        List.filter_filter]
      apply List.filter_congr
      intro x _
      by_cases hx : x = a
      · subst hx; simp [hp]
      · simp [hx]

theorem sourceChunks_cons_ne (f : JSString) (m : RankedChunk) (ms : List RankedChunk)
    (h : m.filename ≠ f) : sourceChunks f (m :: ms) = sourceChunks f ms := by
  unfold sourceChunks
  rw [List.filter_cons_of_neg (by simpa using h)]

theorem sourceChunks_cons_eq (m : RankedChunk) (ms : List RankedChunk) :
    sourceChunks m.filename (m :: ms) = m.chunk :: sourceChunks m.filename ms := by
  unfold sourceChunks
  rw [List.filter_cons_of_pos (by simp), List.map_cons]

theorem groupAll_eq (ms : List RankedChunk) :
    ∀ g : Grouped, (∀ m ∈ ms, m.filename ∉ objectPrototypeKeys) →
      groupAll g ms = Except.ok
        (g.map (fun e => (e.1, e.2 ++ sourceChunks e.1 ms))
          ++ (firstAppearances ((ms.map (fun m => m.filename)).filter
                (fun f => decide (f ∉ g.map Prod.fst)))).map
              (fun f => (f, sourceChunks f ms))) := by
  induction ms with
  | nil =>
    intro g _
    simp [groupAll, sourceChunks, firstAppearances]
  | cons m ms ih =>
    intro g hproto
    have hm : m.filename ∉ objectPrototypeKeys := hproto m (List.mem_cons_self _ _)
    have hms : ∀ x ∈ ms, x.filename ∉ objectPrototypeKeys :=
      fun x hx => hproto x (List.mem_cons_of_mem _ hx)
    rw [groupAll, groupStep]
    by_cases hown : m.filename ∈ g.map Prod.fst
    · have hany : g.any (fun e => decide (e.1 = m.filename)) = true := by
        obtain ⟨e, he, hfe⟩ := List.mem_map.mp hown
        exact List.any_eq_true.mpr ⟨e, he, by simpa using hfe⟩
      rw [if_pos hany]
      simp only []
      rw [ih _ hms]
      have hkeys : (g.map (fun e => if e.1 = m.filename then (e.1, e.2 ++ [m.chunk]) else e)).map
          Prod.fst = g.map Prod.fst := by
        rw [List.map_map]
        apply List.map_congr_left
        intro e _
        by_cases he : e.1 = m.filename <;> simp [he]
      rw [hkeys, List.map_map, List.map_cons,
        List.filter_cons_of_neg (by simpa using hown)]
      congr 2
      · apply List.map_congr_left
        intro e _
        by_cases he : e.1 = m.filename
        · simp only [Function.comp, he, if_true]
          rw [sourceChunks_cons_eq, List.append_assoc]
          rfl
        · simp only [Function.comp, he, if_false]
          rw [sourceChunks_cons_ne _ _ _ (fun h => he h.symm)]
      · apply List.map_congr_left
        intro f hf
        have hf' := (List.mem_filter.mp (firstAppearances_subset _ _ hf)).2
        have hne : m.filename ≠ f := by
          intro h
          rw [← h] at hf'
          simp at hf'
          obtain ⟨b, hb⟩ := hown |> List.mem_map.mp |> fun ⟨e, he, hfe⟩ => (⟨e.2, by rw [← hfe]; exact he⟩ : ∃ b, (m.filename, b) ∈ g)
          exact hf' b hb
        rw [sourceChunks_cons_ne _ _ _ hne]
    · have hany : ¬ (g.any (fun e => decide (e.1 = m.filename)) = true) := by
        intro h
        obtain ⟨e, he, hfe⟩ := List.any_eq_true.mp h
        exact hown (List.mem_map.mpr ⟨e, he, by simpa using hfe⟩)
      rw [if_neg hany, if_neg hm]
      simp only []
      rw [ih _ hms, List.map_append, List.map_cons, List.map_nil, List.map_append,
        List.map_cons, List.map_nil, List.map_cons,
        List.filter_cons_of_pos (by simpa using hown), firstAppearances, List.map_cons,
        sourceChunks_cons_eq, List.append_assoc]
      dsimp only
      congr 1
      refine congrArg₂ (fun a b => a ++ b) ?_ ?_
      · apply List.map_congr_left
        intro e he
        have hne : m.filename ≠ e.1 := fun h => hown (List.mem_map.mpr ⟨e, he, h.symm⟩)
        rw [sourceChunks_cons_ne _ _ _ hne]
      · rw [List.singleton_append]
        refine congrArg₂ List.cons rfl ?_
        rw [← firstAppearances_filter, List.filter_filter]
        have hfil : (ms.map (fun m => m.filename)).filter
              (fun f => decide (f ∉ g.map Prod.fst ++ [m.filename]))
            = (ms.map (fun m => m.filename)).filter
              (fun a => decide (a ≠ m.filename) && decide (a ∉ g.map Prod.fst)) := by
          apply List.filter_congr
          intro f _
          by_cases h1 : f = m.filename <;> by_cases h2 : f ∈ g.map Prod.fst <;> simp [h1, h2]
        rw [hfil]
        apply List.map_congr_left
        intro f hf
        have hf' := (List.mem_filter.mp (firstAppearances_subset _ _ hf)).2
        have hne : m.filename ≠ f := by
          intro h
          rw [← h] at hf'
          simp at hf'
        rw [sourceChunks_cons_ne _ _ _ hne]

theorem objectEntries_of_no_index (g : Grouped) (h : ∀ e ∈ g, arrayIndex? e.1 = none) :
    objectEntries g = g := by
  unfold objectEntries
  have h1 : g.filterMap (fun e => (arrayIndex? e.1).map (fun n => (n, e))) = [] := by
    rw [List.filterMap_eq_nil_iff]
    intro e he
    rw [h e he]
    rfl
  have h2 : g.filter (fun e => (arrayIndex? e.1).isNone) = g := by
    rw [List.filter_eq_self]
    intro e he
    rw [h e he]
    rfl
  rw [h1, h2]
  rfl

/-- C9, as the code has it: when no source identifier among the matches is an
array index (a canonical decimal numeral up to `2^32 - 2`) or the name of a
property of `Object.prototype`, the assembled context lists one labelled
group per distinct source in order of first appearance among the matches, and
inside each group the fragments in ranked order joined by the delimiter. -/
theorem contextText_groups_in_order (ranked : List RankedChunk)
    (h : ∀ m ∈ ranked, arrayIndex? m.filename = none ∧ m.filename ∉ objectPrototypeKeys) :
    contextText ranked = Except.ok (assembleSpec ranked) := by
  unfold contextText
  by_cases hlen : ranked.length > 0
  · rw [if_pos hlen, groupAll_eq ranked [] (fun m hm => (h m hm).2)]
    simp only [List.map_nil, List.nil_append, List.not_mem_nil, not_false_eq_true,
      decide_True, List.filter_true]
    rw [objectEntries_of_no_index, List.map_map]
    · rfl
    · intro e he
      obtain ⟨f, hf, rfl⟩ := List.mem_map.mp he
      obtain ⟨m, hm, rfl⟩ := List.mem_map.mp (firstAppearances_subset _ _ hf)
      exact (h m hm).1
  · rw [if_neg hlen]
    have : ranked = [] := List.length_eq_zero.mp (by omega)
    subst this
    rfl

/-- C9 at a concrete input: matches from `a.txt`, `b.txt`, `a.txt`. -/
theorem contextText_groups_in_order_witness :
    contextText [RankedChunk.mk (utf16 "x") [] (JSNumber.fin 1) (utf16 "a.txt"),
        RankedChunk.mk (utf16 "y") [] (JSNumber.fin 1) (utf16 "b.txt"),
        RankedChunk.mk (utf16 "z") [] (JSNumber.fin 0) (utf16 "a.txt")]
      = Except.ok (assembleSpec [RankedChunk.mk (utf16 "x") [] (JSNumber.fin 1) (utf16 "a.txt"),
        RankedChunk.mk (utf16 "y") [] (JSNumber.fin 1) (utf16 "b.txt"),
        RankedChunk.mk (utf16 "z") [] (JSNumber.fin 0) (utf16 "a.txt")]) :=
  contextText_groups_in_order _ (by
    intro m hm
    rcases List.mem_cons.mp hm with rfl | hm
    · exact ⟨by decide, by decide⟩
    · rcases List.mem_cons.mp hm with rfl | hm
      · exact ⟨by decide, by decide⟩
      · rcases List.mem_cons.mp hm with rfl | hm
        · exact ⟨by decide, by decide⟩
        · cases hm)

/-- C9 as stated fails: with matches from sources "10" then "2" the context
lists the group of "2" before the group of "10", and with a match from source
"__proto__" the assembly throws a `TypeError`. -/
theorem contextText_order_counterexample :
    contextText [RankedChunk.mk (utf16 "A") [] (JSNumber.fin 1) (utf16 "10"),
        RankedChunk.mk (utf16 "B") [] (JSNumber.fin 0) (utf16 "2")]
      = Except.ok (arrayJoin (utf16 "\n\n")
          [renderGroup (utf16 "2", [utf16 "B"]), renderGroup (utf16 "10", [utf16 "A"])])
    ∧ assembleSpec [RankedChunk.mk (utf16 "A") [] (JSNumber.fin 1) (utf16 "10"),
        RankedChunk.mk (utf16 "B") [] (JSNumber.fin 0) (utf16 "2")]
      = arrayJoin (utf16 "\n\n")
          [renderGroup (utf16 "10", [utf16 "A"]), renderGroup (utf16 "2", [utf16 "B"])]
    ∧ arrayJoin (utf16 "\n\n")
          [renderGroup (utf16 "2", [utf16 "B"]), renderGroup (utf16 "10", [utf16 "A"])]
      ≠ arrayJoin (utf16 "\n\n")
          [renderGroup (utf16 "10", [utf16 "A"]), renderGroup (utf16 "2", [utf16 "B"])]
    ∧ contextText [RankedChunk.mk (utf16 "A") [] (JSNumber.fin 1) (utf16 "__proto__")]
      = Except.error JSError.typeError :=
  ⟨rfl, rfl, by decide, rfl⟩

end OllamaChat
